import Mathlib

/-!
Verification of the response-parsing core and orchestrator control flow of
`src/main.py` (a one-shot "query to file" script around an LLM call).

The parsing routine `extract_filename_and_content` in the source is a single
Python regex match, evaluated once with `re.match` and `re.DOTALL`:

  pattern built from four parts, anchored at the start, ending with a
  dollar anchor:
    part 1 (optional, group 1): two asterisks, a lazy run `.+?` of at least
      one arbitrary character (DOTALL: dot matches newline also), a literal
      dot, a greedy run `\w+` of word characters, two asterisks, then one or
      more newlines;
    part 2 (optional): an opening fence, either three backticks or three
      single quotes, an optional run of word characters (a language tag),
      then a newline;
    part 3 (group 2): a lazy `.*?` capturing the body;
    part 4 (optional, group 3): a newline followed by three backticks or
      three single quotes, then the dollar anchor.

Because every part is optional and group 2 can capture anything, the match
always succeeds, so the `if match:` branch in the source is always taken.
The input is stripped first, so it never ends in a newline, hence the dollar
anchor only matches at the very end of the string and part 4 matches exactly
when the final four characters are a newline followed by a closing fence.
Since the continuation after each optional part always succeeds, the regex
engine commits to the first (greedy) choice of each optional prefix part and
never backtracks across parts; inside part 1 the lazy `.+?` takes the
shortest run that lets the rest of part 1 match, and the greedy `\w+` run is
forced to be the maximal word-character run (an asterisk is not a word
character, a newline is not a word character, so shorter runs cannot be
followed by the required literal).

The embedding below implements exactly that committed-choice semantics on
`List Char`. Character classes use the ASCII fragments of the Python classes
(`\w` is letters, digits and underscore; `str.strip` whitespace is space,
tab, newline, carriage return, vertical tab, form feed); every claim is
settled on ASCII inputs.

The orchestrator (the top-level statements of `src/main.py`) is embedded as
a function from an explicit environment (credential, input file state, model
outcome, write outcome) to the ordered list of externally visible events
(the network call, the file write) plus an optional fatal error, mirroring
the linear raise-and-abort control flow of the script.
-/

/-- The backtick character (code 96), written via `Char.ofNat`. -/
def bq : Char := Char.ofNat 96

/-- The single-quote character (code 39), written via `Char.ofNat`. -/
def qc : Char := Char.ofNat 39

/-- ASCII fragment of the whitespace class used by Python `str.strip()`. -/
def isPySpace (c : Char) : Bool :=
  c == ' ' || c == '\t' || c == '\n' || c == '\r' ||
    c == Char.ofNat 11 || c == Char.ofNat 12

/-- ASCII fragment of the regex class `\w`: letters, digits, underscore. -/
def isWordChar (c : Char) : Bool :=
  c.isAlphanum || c == '_'

/-- Remove trailing whitespace (the right half of Python `str.strip()`). -/
def rstripRev (l : List Char) : List Char :=
  (l.reverse.dropWhile isPySpace).reverse

/-- Python `str.strip()`: remove leading and trailing whitespace. -/
def pyStrip (l : List Char) : List Char :=
  rstripRev (l.dropWhile isPySpace)

/--
The tail of regex part 1 after the lazy run: a literal dot, a non-empty
greedy word-character run, two asterisks, one or more newlines. On success
returns the dot-plus-extension chunk (part of group 1) and the remainder
after the newlines.
-/
def dotSuffix (l : List Char) : Option (List Char × List Char) :=
  match l with
  | [] => none
  | c :: rest =>
    if c = '.' then
      let ext := rest.takeWhile isWordChar
      if ext.isEmpty then none
      else
        match rest.dropWhile isWordChar with
        | s1 :: s2 :: rest2 =>
          if s1 = '*' ∧ s2 = '*' then
            let nls := rest2.takeWhile (fun d => d = '\n')
            if nls.isEmpty then none
            else some ('.' :: ext, rest2.dropWhile (fun d => d = '\n'))
          else none
        | _ => none
    else none

/--
The lazy run `.+?` of regex part 1: consume characters one at a time
(shortest first), after each one trying `dotSuffix` on the remainder.
`acc` holds the characters consumed so far. Returns group 1 (without the
surrounding asterisks) and the remainder after the marker.
-/
def fnameScan (acc : List Char) : List Char → Option (List Char × List Char)
  | [] => none
  | c :: rest =>
    match dotSuffix rest with
    | some (dotted, after) => some (acc ++ c :: dotted, after)
    | none => fnameScan (acc ++ [c]) rest

/--
Regex part 1, the optional filename marker: two asterisks, then the lazy
scan. Returns the captured filename and the remainder, or `none` when the
marker is absent or malformed.
-/
def matchFilenameMarker (l : List Char) : Option (List Char × List Char) :=
  match l with
  | a :: b :: rest => if a = '*' ∧ b = '*' then fnameScan [] rest else none
  | _ => none

/--
Regex part 2, the optional opening fence: three backticks or three single
quotes, an optional greedy word-character run (the language tag), then a
newline. Returns the remainder after the newline when matched.
-/
def matchFenceOpen (l : List Char) : Option (List Char) :=
  match l with
  | c1 :: c2 :: c3 :: rest =>
    if (c1 = bq ∧ c2 = bq ∧ c3 = bq) ∨ (c1 = qc ∧ c2 = qc ∧ c3 = qc) then
      match rest.dropWhile isWordChar with
      | d :: rest2 => if d = '\n' then some rest2 else none
      | [] => none
    else none
  | _ => none

/--
Regex parts 3 and 4 combined: on a stripped input, group 3 participates
exactly when the final four characters are a newline followed by a closing
fence, in which case they are excluded from group 2.
-/
def stripClosingFence (l : List Char) : List Char :=
  match l.reverse with
  | c1 :: c2 :: c3 :: c4 :: rest =>
    if c4 = '\n' ∧ ((c1 = bq ∧ c2 = bq ∧ c3 = bq) ∨ (c1 = qc ∧ c2 = qc ∧ c3 = qc)) then
      rest.reverse
    else l
  | _ => l

/--
The whole regex match on the stripped input: the pair of the optional
group 1 (captured filename) and group 2 (the inner body). Parts are tried
in order with committed choice, as explained in the header comment.
-/
def parsedGroups (l : List Char) : Option (List Char) × List Char :=
  let step1 :=
    match matchFilenameMarker l with
    | some (f, rest) => (some f, rest)
    | none => ((none : Option (List Char)), l)
  let rest2 :=
    match matchFenceOpen step1.2 with
    | some r => r
    | none => step1.2
  (step1.1, stripClosingFence rest2)

/-- The default filename used when no marker is captured. -/
def outputTxt : List Char := "output.txt".toList

/--
`extract_filename_and_content` from `src/main.py`, lines 29 to 56: strip the
raw response, run the regex, and post-process with Python truthiness — the
captured group 2 replaces the stripped content only when it is non-empty
(`if inner_content:`), and the captured filename is used only when present
(group 1, when it participates, is never empty, being at least three
characters long). Returns the pair (parsed content, filename).
-/
def extract_filename_and_content (raw : List Char) : List Char × List Char :=
  let content := pyStrip raw
  let pg := parsedGroups content
  let parsed_content := if pg.2.isEmpty then content else pyStrip pg.2
  match pg.1 with
  | some f => (parsed_content, f)
  | none => (parsed_content, outputTxt)

/-- The opening/closing backtick fence as a character list. -/
def fenceBT : List Char := [bq, bq, bq]

/-- The single-quote fence as a character list. -/
def fenceQ3 : List Char := [qc, qc, qc]

/-- `leadsWith pat l` holds when `pat` is an initial segment of `l`. -/
def leadsWith : List Char → List Char → Bool
  | [], _ => true
  | _ :: _, [] => false
  | p :: ps, c :: cs => p = c && leadsWith ps cs

/-- `occursIn pat l` holds when `pat` occurs contiguously anywhere in `l`. -/
def occursIn (pat : List Char) : List Char → Bool
  | [] => leadsWith pat []
  | c :: cs => leadsWith pat (c :: cs) || occursIn pat cs

/--
Outcome of opening and reading the input file in the orchestrator, step 2 of
`src/main.py`: the file may be absent (`FileNotFoundError`), may fail UTF-8
decoding (`UnicodeDecodeError`), or may yield its text.
-/
inductive FileRead where
  | missing : FileRead
  | badBytes : FileRead
  | ok : List Char → FileRead
deriving DecidableEq

/--
The ambient state the script interacts with: the credential from the
environment (`os.getenv` returns `none` when unset, and Python truthiness
also rejects an empty string), the input file, whether the client object
can be constructed, the model call outcome (`none` means the call raised),
and whether the final file write succeeds.
-/
structure Env where
  apiKey : Option (List Char)
  inputFile : FileRead
  clientInitOk : Bool
  llmResponse : Option (List Char)
  writeOk : Bool

/-- Externally visible actions of a run: the network call and a file write. -/
inductive Event where
  | netCall : Event
  | fileWrite : (name : List Char) → (text : List Char) → Event
deriving DecidableEq

/-- The distinct fatal error classes raised by the script, in source order. -/
inductive ScriptError where
  | configError : ScriptError
  | inputNotFound : ScriptError
  | inputDecodeFailed : ScriptError
  | inputEmpty : ScriptError
  | clientInitFailed : ScriptError
  | llmFailed : ScriptError
  | writeFailed : ScriptError
deriving DecidableEq

/--
The orchestrator: the top-level statement sequence of `src/main.py` (steps 1
to 9), embedded as a function from the environment to the ordered list of
performed events plus the fatal error, if any, that ends the run. Mirrors
the source control flow: credential check, input read with its three
distinct failures (the empty-input `ValueError` raised inside the `try` is
not caught by the `except` clauses, which only match `FileNotFoundError`
and `UnicodeDecodeError`), client construction, the single network call,
the always-succeeding parse, and the final write. An error leaves the run
with no further events, as a raised Python exception would.
-/
def runScript (e : Env) : List Event × Option ScriptError :=
  match e.apiKey with
  | none => ([], some ScriptError.configError)
  | some k =>
    if k.isEmpty then ([], some ScriptError.configError)
    else
      match e.inputFile with
      | FileRead.missing => ([], some ScriptError.inputNotFound)
      | FileRead.badBytes => ([], some ScriptError.inputDecodeFailed)
      | FileRead.ok txt =>
        if (pyStrip txt).isEmpty then ([], some ScriptError.inputEmpty)
        else if e.clientInitOk then
          match e.llmResponse with
          | none => ([Event.netCall], some ScriptError.llmFailed)
          | some r =>
            let parsed := extract_filename_and_content r
            if e.writeOk then ([Event.netCall, Event.fileWrite parsed.2 parsed.1], none)
            else ([Event.netCall], some ScriptError.writeFailed)
        else ([], some ScriptError.clientInitFailed)

/-! ### Helper lemmas about stripping -/

theorem dropWhile_twice (p : Char → Bool) (l : List Char) :
    (l.dropWhile p).dropWhile p = l.dropWhile p := by
  induction l with
  | nil => rfl
  | cons a as ih =>
    by_cases hp : p a = true
    · rw [List.dropWhile_cons_of_pos hp]; exact ih
    · rw [List.dropWhile_cons_of_neg hp, List.dropWhile_cons_of_neg hp]

theorem dropWhile_head_false (p : Char → Bool) :
    ∀ {l : List Char} {c : Char} {t : List Char}, l.dropWhile p = c :: t → p c = false := by
  intro l
  induction l with
  | nil => intro c t h; simp [List.dropWhile] at h
  | cons a as ih =>
    intro c t h
    by_cases hp : p a = true
    · rw [List.dropWhile_cons_of_pos hp] at h; exact ih h
    · rw [List.dropWhile_cons_of_neg hp] at h
      cases h
      simpa using hp

theorem rstripRev_suffix (l : List Char) :
    l = rstripRev l ++ (l.reverse.takeWhile isPySpace).reverse := by
  conv_lhs => rw [← List.reverse_reverse l,
    ← List.takeWhile_append_dropWhile (p := isPySpace) (l := l.reverse)]
  rw [List.reverse_append]
  rfl

theorem rstripRev_idem (l : List Char) : rstripRev (rstripRev l) = rstripRev l := by
  simp [rstripRev, List.reverse_reverse, dropWhile_twice]

theorem dropWhile_rstripRev (l : List Char) :
    (rstripRev (l.dropWhile isPySpace)).dropWhile isPySpace
      = rstripRev (l.dropWhile isPySpace) := by
  cases h : rstripRev (l.dropWhile isPySpace) with
  | nil => rfl
  | cons c t =>
    have hdec := rstripRev_suffix (l.dropWhile isPySpace)
    rw [h] at hdec
    have hc : isPySpace c = false := dropWhile_head_false isPySpace hdec
    exact List.dropWhile_cons_of_neg (by simp [hc])

theorem pyStrip_idem (l : List Char) : pyStrip (pyStrip l) = pyStrip l := by
  show rstripRev ((pyStrip l).dropWhile isPySpace) = pyStrip l
  unfold pyStrip
  rw [dropWhile_rstripRev, rstripRev_idem]

theorem pyStrip_decomp (l : List Char) : ∃ a b, l = a ++ pyStrip l ++ b := by
  refine ⟨l.takeWhile isPySpace,
    ((l.dropWhile isPySpace).reverse.takeWhile isPySpace).reverse, ?_⟩
  conv_lhs => rw [← List.takeWhile_append_dropWhile (p := isPySpace) (l := l),
    rstripRev_suffix (l.dropWhile isPySpace)]
  rw [List.append_assoc]
  rfl

/-! ### Helper lemmas about substring occurrence -/

theorem leadsWith_extend {pat : List Char} :
    ∀ {l : List Char}, leadsWith pat l = true → ∀ y, leadsWith pat (l ++ y) = true := by
  induction pat with
  | nil => intro l _ y; rfl
  | cons p ps ih =>
    intro l h y
    cases l with
    | nil => simp [leadsWith] at h
    | cons c cs =>
      simp only [leadsWith, Bool.and_eq_true] at h ⊢
      exact ⟨h.1, ih h.2 y⟩

theorem occursIn_of_leadsWith {pat l : List Char} (h : leadsWith pat l = true) :
    occursIn pat l = true := by
  cases l with
  | nil => exact h
  | cons c cs => simp [occursIn, h]

theorem occursIn_append_left {pat l : List Char} (h : occursIn pat l = true) :
    ∀ x : List Char, occursIn pat (x ++ l) = true := by
  intro x
  induction x with
  | nil => exact h
  | cons c cs ih => simp [occursIn, ih]

theorem occursIn_append_right {pat : List Char} :
    ∀ {l : List Char}, occursIn pat l = true → ∀ y, occursIn pat (l ++ y) = true := by
  intro l
  induction l with
  | nil =>
    intro h y
    have hpat : leadsWith pat [] = true := h
    cases pat with
    | nil => exact occursIn_of_leadsWith rfl
    | cons p ps => simp [leadsWith] at hpat
  | cons c cs ih =>
    intro h y
    simp only [occursIn, Bool.or_eq_true] at h
    rcases h with h | h
    · exact occursIn_of_leadsWith (leadsWith_extend h y)
    · simp only [List.cons_append, occursIn, Bool.or_eq_true]
      exact Or.inr (ih h y)

theorem occursIn_infix_false {pat a m b l : List Char} (hdec : l = a ++ m ++ b)
    (h : occursIn pat l = false) : occursIn pat m = false := by
  by_contra hc
  have hm : occursIn pat m = true := by
    cases hx : occursIn pat m with
    | false => exact absurd hx hc
    | true => rfl
  have : occursIn pat l = true := by
    rw [hdec, List.append_assoc]
    exact occursIn_append_left (occursIn_append_right hm b) a
  rw [this] at h
  simp at h

/-! ### Inversion lemmas for the matchers -/

theorem matchFenceOpen_leads {l r : List Char} (h : matchFenceOpen l = some r) :
    leadsWith fenceBT l = true ∨ leadsWith fenceQ3 l = true := by
  match l with
  | [] => simp [matchFenceOpen] at h
  | [c1] => simp [matchFenceOpen] at h
  | [c1, c2] => simp [matchFenceOpen] at h
  | c1 :: c2 :: c3 :: rest =>
    simp only [matchFenceOpen] at h
    split at h
    · rename_i hcond
      rcases hcond with ⟨h1, h2, h3⟩ | ⟨h1, h2, h3⟩
      · subst h1; subst h2; subst h3
        left; simp [fenceBT, leadsWith]
      · subst h1; subst h2; subst h3
        right; simp [fenceQ3, leadsWith]
    · exact absurd h (by simp)

theorem stripClosingFence_of_no_fence {l : List Char}
    (hb : occursIn fenceBT l = false) (hq : occursIn fenceQ3 l = false) :
    stripClosingFence l = l := by
  unfold stripClosingFence
  split
  · rename_i c1 c2 c3 c4 rest hrev
    split
    · rename_i hcond
      obtain ⟨hnl, hfence⟩ := hcond
      have hl : l = rest.reverse ++ [c4, c3, c2, c1] := by
        conv_lhs => rw [← List.reverse_reverse l, hrev]
        simp
      rcases hfence with ⟨h1, h2, h3⟩ | ⟨h1, h2, h3⟩
      · exfalso
        subst h1; subst h2; subst h3; subst hnl
        have hocc : occursIn fenceBT l = true := by
          rw [hl]
          have : rest.reverse ++ ['\n', bq, bq, bq]
              = (rest.reverse ++ ['\n']) ++ fenceBT := by simp [fenceBT]
          rw [this]
          exact occursIn_append_left (occursIn_of_leadsWith (by simp [fenceBT, leadsWith])) _
        rw [hocc] at hb
        simp at hb
      · exfalso
        subst h1; subst h2; subst h3; subst hnl
        have hocc : occursIn fenceQ3 l = true := by
          rw [hl]
          have : rest.reverse ++ ['\n', qc, qc, qc]
              = (rest.reverse ++ ['\n']) ++ fenceQ3 := by simp [fenceQ3]
          rw [this]
          exact occursIn_append_left (occursIn_of_leadsWith (by simp [fenceQ3, leadsWith])) _
        rw [hocc] at hq
        simp at hq
    · rfl
  · rfl

/-! ### Behaviour of the parser on marker-free, fence-free input -/

theorem extract_plain (s : List Char)
    (hm : matchFilenameMarker (pyStrip s) = none)
    (hb : occursIn fenceBT (pyStrip s) = false)
    (hq : occursIn fenceQ3 (pyStrip s) = false) :
    extract_filename_and_content s = (pyStrip s, outputTxt) := by
  have hfo : matchFenceOpen (pyStrip s) = none := by
    cases h : matchFenceOpen (pyStrip s) with
    | none => rfl
    | some r =>
      exfalso
      rcases matchFenceOpen_leads h with hl | hl
      · rw [occursIn_of_leadsWith hl] at hb; simp at hb
      · rw [occursIn_of_leadsWith hl] at hq; simp at hq
  have hsc : stripClosingFence (pyStrip s) = pyStrip s :=
    stripClosingFence_of_no_fence hb hq
  simp only [extract_filename_and_content, parsedGroups, hm, hfo, hsc]
  by_cases he : (pyStrip s).isEmpty
  · simp [he]
  · simp [he, pyStrip_idem]

theorem extract_snd (l : List Char) :
    (extract_filename_and_content l).2 =
      (match matchFilenameMarker (pyStrip l) with
       | some (f, _) => f
       | none => outputTxt) := by
  cases h : matchFilenameMarker (pyStrip l) with
  | none => simp [extract_filename_and_content, parsedGroups, h]
  | some fr =>
    obtain ⟨f, rest⟩ := fr
    simp [extract_filename_and_content, parsedGroups, h]

theorem dropWhile_eq_nil_of_all {p : Char → Bool} :
    ∀ {l : List Char}, (∀ c ∈ l, p c = true) → l.dropWhile p = [] := by
  intro l
  induction l with
  | nil => intro _; rfl
  | cons a as ih =>
    intro h
    rw [List.dropWhile_cons_of_pos (h a (by simp))]
    exact ih fun c hc => h c (by simp [hc])

theorem pyStrip_all_space {l : List Char} (h : ∀ c ∈ l, isPySpace c = true) :
    pyStrip l = [] := by
  unfold pyStrip rstripRev
  rw [dropWhile_eq_nil_of_all h]
  rfl

theorem mem_takeWhile_pred {p : Char → Bool} :
    ∀ {l : List Char} {c : Char}, c ∈ l.takeWhile p → p c = true := by
  intro l
  induction l with
  | nil => intro c h; simp [List.takeWhile] at h
  | cons a as ih =>
    intro c h
    by_cases hp : p a = true
    · rw [List.takeWhile_cons_of_pos hp] at h
      rcases List.mem_cons.mp h with rfl | h2
      · exact hp
      · exact ih h2
    · rw [List.takeWhile_cons_of_neg hp] at h
      simp at h

/-! ### Shape of a captured filename marker -/

theorem takeWhile_newline_replicate (l : List Char) :
    l.takeWhile (fun d => d = '\n')
      = List.replicate (l.takeWhile (fun d => d = '\n')).length '\n' := by
  induction l with
  | nil => rfl
  | cons a as ih =>
    by_cases ha : a = '\n'
    · subst ha
      rw [List.takeWhile_cons_of_pos (by simp)]
      simp [List.replicate_succ, ih.symm]
    · rw [List.takeWhile_cons_of_neg (by simp [ha])]
      rfl

theorem dotSuffix_sound {l dotted rest : List Char}
    (h : dotSuffix l = some (dotted, rest)) :
    ∃ ext k, dotted = '.' :: ext ∧ ext ≠ [] ∧ (∀ c ∈ ext, isWordChar c = true) ∧
      1 ≤ k ∧ l = '.' :: (ext ++ '*' :: '*' :: (List.replicate k '\n' ++ rest)) := by
  match l with
  | [] => simp [dotSuffix] at h
  | c :: r =>
    simp only [dotSuffix] at h
    split at h
    · rename_i hc
      subst hc
      split at h
      · exact absurd h (by simp)
      · rename_i hext
        split at h
        · rename_i s1 s2 rest2 hdw
          split at h
          · rename_i hstars
            obtain ⟨hs1, hs2⟩ := hstars
            subst hs1; subst hs2
            split at h
            · exact absurd h (by simp)
            · rename_i hnls
              rw [Option.some_inj] at h
              obtain ⟨hdot, hrest⟩ := Prod.mk.injEq .. ▸ h
              refine ⟨r.takeWhile isWordChar,
                (rest2.takeWhile (fun d => d = '\n')).length, ?_, ?_, ?_, ?_, ?_⟩
              · exact hdot.symm
              · intro hnil
                rw [hnil] at hext
                simp at hext
              · intro c hc; exact mem_takeWhile_pred hc
              · rcases hk : (rest2.takeWhile (fun d => d = '\n')).length with _ | n
                · exfalso
                  have : rest2.takeWhile (fun d => d = '\n') = [] :=
                    List.length_eq_zero.mp hk
                  rw [this] at hnls
                  simp at hnls
                · exact Nat.succ_le_succ (Nat.zero_le n)
              · have hr : r = r.takeWhile isWordChar ++ ('*' :: '*' :: rest2) := by
                  conv_lhs => rw [← List.takeWhile_append_dropWhile
                    (p := isWordChar) (l := r), hdw]
                have hr2 : rest2 = List.replicate
                    (rest2.takeWhile (fun d => d = '\n')).length '\n' ++ rest := by
                  conv_lhs => rw [← List.takeWhile_append_dropWhile
                    (p := fun d => d = '\n') (l := rest2)]
                  rw [← takeWhile_newline_replicate, hrest]
                rw [List.cons_inj_right]
                conv_lhs => rw [hr, hr2]
          · exact absurd h (by simp)
        · exact absurd h (by simp)
    · exact absurd h (by simp)

theorem fnameScan_sound :
    ∀ {l acc f rest : List Char}, fnameScan acc l = some (f, rest) →
      ∃ mid rest1 dotted, mid ≠ [] ∧ l = mid ++ rest1 ∧
        dotSuffix rest1 = some (dotted, rest) ∧ f = acc ++ (mid ++ dotted) := by
  intro l
  induction l with
  | nil => intro acc f rest h; simp [fnameScan] at h
  | cons c cs ih =>
    intro acc f rest h
    simp only [fnameScan] at h
    cases hds : dotSuffix cs with
    | some da =>
      obtain ⟨d, a⟩ := da
      rw [hds] at h
      rw [Option.some_inj] at h
      obtain ⟨hf, hrest⟩ := Prod.mk.injEq .. ▸ h
      refine ⟨[c], cs, d, by simp, by simp, by rw [hds, hrest], ?_⟩
      rw [← hf]
      simp
    | none =>
      rw [hds] at h
      obtain ⟨mid, rest1, dotted, hmid, hcs, hdot, hf⟩ := ih h
      refine ⟨c :: mid, rest1, dotted, by simp, by simp [hcs], hdot, ?_⟩
      rw [hf]
      simp

theorem matchFilenameMarker_shape {l f rest : List Char}
    (h : matchFilenameMarker l = some (f, rest)) :
    ∃ nm ext k, nm ≠ [] ∧ ext ≠ [] ∧ (∀ c ∈ ext, isWordChar c = true) ∧ 1 ≤ k ∧
      f = nm ++ '.' :: ext ∧
      l = '*' :: '*' :: (nm ++ '.' :: (ext ++ '*' :: '*' :: (List.replicate k '\n' ++ rest))) := by
  match l with
  | [] => simp [matchFilenameMarker] at h
  | [a] => simp [matchFilenameMarker] at h
  | a :: b :: rest0 =>
    simp only [matchFilenameMarker] at h
    split at h
    · rename_i hab
      obtain ⟨ha, hb⟩ := hab
      subst ha; subst hb
      obtain ⟨mid, rest1, dotted, hmid, hr0, hdot, hf⟩ := fnameScan_sound h
      obtain ⟨ext, k, hde, hene, hword, hk, hr1⟩ := dotSuffix_sound hdot
      refine ⟨mid, ext, k, hmid, hene, hword, hk, ?_, ?_⟩
      · rw [hf, hde]; simp
      · rw [hr0, hr1]
    · exact absurd h (by simp)

/-! ### Support for fenced-input reasoning -/

theorem pyStrip_cons_concat {c d : Char} {m : List Char}
    (hc : isPySpace c = false) (hd : isPySpace d = false) :
    pyStrip (c :: (m ++ [d])) = c :: (m ++ [d]) := by
  unfold pyStrip rstripRev
  rw [List.dropWhile_cons_of_neg (by simp [hc])]
  rw [show (c :: (m ++ [d])).reverse = d :: (m.reverse ++ [c]) by simp]
  rw [List.dropWhile_cons_of_neg (by simp [hd])]
  simp

theorem dropWhile_word_tag {tag : List Char} (htag : ∀ c ∈ tag, isWordChar c = true) :
    ∀ z : List Char, (tag ++ '\n' :: z).dropWhile isWordChar = '\n' :: z := by
  intro z
  induction tag with
  | nil =>
    exact List.dropWhile_cons_of_neg (by decide)
  | cons t ts ih =>
    rw [List.cons_append,
      List.dropWhile_cons_of_pos (htag t (by simp))]
    exact ih fun c hc => htag c (List.mem_cons_of_mem t hc)

theorem occursIn_pyStrip_false {pat s : List Char} (h : occursIn pat s = false) :
    occursIn pat (pyStrip s) = false := by
  obtain ⟨a, b, hd⟩ := pyStrip_decomp s
  exact occursIn_infix_false hd h

theorem runScript_trace (e : Env) :
    (runScript e).2 = none ∨ (runScript e).1 = [] ∨ (runScript e).1 = [Event.netCall] := by
  obtain ⟨k, fi, ci, lr, w⟩ := e
  unfold runScript
  repeat' split
  all_goals simp

/-! ### The claims -/

/--
Claim C1, counterexample: for the response below, the inner body captured by
the regex (group 2) is empty, yet the parser does not return the empty
string as content — the Python truthiness test `if inner_content:` makes it
fall back to the entire stripped input.
-/
theorem C1_counterexample :
    (parsedGroups (pyStrip ("**a.py**\n```py\n\n```".toList))).2 = [] ∧
      extract_filename_and_content ("**a.py**\n```py\n\n```".toList)
        = ("**a.py**\n```py\n\n```".toList, "a.py".toList) ∧
      "**a.py**\n```py\n\n```".toList ≠ ([] : List Char) := by
  refine ⟨by decide, by decide, by decide⟩

/--
Claim C1 as amended: when the inner body captured after marker and fence
removal is empty, `extract_filename_and_content` returns the whole stripped
input as the content component (so the content is empty exactly when the
stripped input is), and the filename component is the captured filename when
one was present, otherwise the default.
-/
theorem C1_empty_body (s : List Char) (h : (parsedGroups (pyStrip s)).2 = []) :
    extract_filename_and_content s
      = (pyStrip s, ((parsedGroups (pyStrip s)).1).getD outputTxt) := by
  simp only [extract_filename_and_content, h]
  cases hf : (parsedGroups (pyStrip s)).1 <;> simp [hf]

/-- Claim C1, witness: the amended statement instantiated at the input above. -/
theorem C1_witness :
    extract_filename_and_content ("**a.py**\n```py\n\n```".toList)
      = (pyStrip ("**a.py**\n```py\n\n```".toList),
        ((parsedGroups (pyStrip ("**a.py**\n```py\n\n```".toList))).1).getD outputTxt) :=
  C1_empty_body _ (by decide)

/--
Claim C2, counterexample: a leading marker whose name part contains a space
is nonetheless recognized, and the filename does not default — the lazy
`.+?` in group 1 matches arbitrary characters, not only non-whitespace.
-/
theorem C2_counterexample :
    extract_filename_and_content ("**a b.py**\nx".toList)
      = (['x'], "a b.py".toList) := by decide

/--
Claim C2 as amended: a captured filename marker always has the shape two
asterisks, a non-empty name (arbitrary characters, matched lazily — it may
contain whitespace or newlines), a literal dot, a non-empty extension of
word characters only, two asterisks, then one or more newlines; and a
leading double-asterisk token without such a dot-extension (for example
`**abc**`) is not recognized, the content keeping it verbatim and the
filename defaulting.
-/
theorem C2_marker_shape :
    (∀ l f rest : List Char, matchFilenameMarker l = some (f, rest) →
      ∃ nm ext k, nm ≠ [] ∧ ext ≠ [] ∧ (∀ c ∈ ext, isWordChar c = true) ∧ 1 ≤ k ∧
        f = nm ++ '.' :: ext ∧
        l = '*' :: '*' :: (nm ++ '.' :: (ext ++ '*' :: '*' :: (List.replicate k '\n' ++ rest))))
    ∧ extract_filename_and_content ("**abc**\nx".toList)
        = ("**abc**\nx".toList, outputTxt) := by
  constructor
  · intro l f rest h
    exact matchFilenameMarker_shape h
  · decide

/-- Claim C2, witness: the shape statement instantiated at a concrete marker. -/
theorem C2_witness :
    ∃ nm ext k, nm ≠ [] ∧ ext ≠ [] ∧ (∀ c ∈ ext, isWordChar c = true) ∧ 1 ≤ k ∧
      "a.py".toList = nm ++ '.' :: ext ∧
      "**a.py**\nx".toList
        = '*' :: '*' :: (nm ++ '.' :: (ext ++ '*' :: '*' :: (List.replicate k '\n' ++ ['x']))) :=
  C2_marker_shape.1 ("**a.py**\nx".toList) ("a.py".toList) ['x'] (by decide)

/--
Claim C3: the parser can return a filename containing a path separator, so
the write at `Path(output_filename)` is not confined to the working
directory. Evaluating the code at the failing input: the model response
below yields the filename `../evil.py`, which contains a slash and makes
the script write into the parent directory.
-/
theorem C3_traversal_eval :
    extract_filename_and_content ("**../evil.py**\nx".toList)
      = (['x'], "../evil.py".toList) ∧
    '/' ∈ (extract_filename_and_content ("**../evil.py**\nx".toList)).2 := by
  refine ⟨by decide, by decide⟩

/--
Claim C4: a non-empty input in which no filename marker is detected and in
which neither fence delimiter occurs parses to the stripped input paired
with the default filename; and whenever no filename marker is detected, the
filename component is the default, on every input.
-/
theorem C4_no_marker_default :
    (∀ s : List Char, s ≠ [] →
      matchFilenameMarker (pyStrip s) = none →
      occursIn fenceBT s = false → occursIn fenceQ3 s = false →
      extract_filename_and_content s = (pyStrip s, outputTxt))
    ∧ (∀ s : List Char, matchFilenameMarker (pyStrip s) = none →
      (extract_filename_and_content s).2 = outputTxt) := by
  constructor
  · intro s _ hm hb hq
    exact extract_plain s hm (occursIn_pyStrip_false hb) (occursIn_pyStrip_false hq)
  · intro s hm
    rw [extract_snd, hm]

/-- Claim C4, witness: the statement instantiated at a plain input. -/
theorem C4_witness :
    extract_filename_and_content ("hello".toList)
      = (pyStrip ("hello".toList), outputTxt) :=
  C4_no_marker_default.1 ("hello".toList) (by decide) (by decide) (by decide) (by decide)

/--
Claim C5: the two concrete examples — with and without a leading filename
marker — parse as specified, stripping the fence with its language tag and
the trailing closing fence.
-/
theorem C5_fence_examples :
    extract_filename_and_content ("**app.py**\n```python\nprint(1)\n```".toList)
      = ("print(1)".toList, "app.py".toList) ∧
    extract_filename_and_content ("```python\nprint(1)\n```".toList)
      = ("print(1)".toList, outputTxt) := by
  refine ⟨by decide, by decide⟩

/--
Claim C6: the parser is a total function (by construction in this
embedding), and on input consisting only of whitespace it returns the empty
content with the default filename.
-/
theorem C6_whitespace_safe (s : List Char) (h : ∀ c ∈ s, isPySpace c = true) :
    extract_filename_and_content s = ([], outputTxt) := by
  have hs := pyStrip_all_space h
  simp only [extract_filename_and_content, hs]
  rfl

/-- Claim C6, witness: instantiated at a concrete all-whitespace input. -/
theorem C6_witness :
    extract_filename_and_content [' ', '\n', '\t'] = ([], outputTxt) :=
  C6_whitespace_safe [' ', '\n', '\t'] (by decide)

/--
Claim C7: whenever any stage before the final write fails, the run ends
with the corresponding error and performs no file write; and when the
credential is absent (or empty, per Python truthiness), the run fails with
the configuration error having performed no events at all — in particular
no network call and no file write.
-/
theorem C7_failfast (e : Env) :
    ((e.apiKey = none ∨ e.apiKey = some []) →
      runScript e = ([], some ScriptError.configError))
    ∧ (∀ err, (runScript e).2 = some err →
      ∀ n c, Event.fileWrite n c ∉ (runScript e).1) := by
  constructor
  · obtain ⟨k, fi, ci, lr, w⟩ := e
    rintro (rfl | rfl) <;> rfl
  · intro err herr n c
    rcases runScript_trace e with h | h | h
    · rw [herr] at h
      exact absurd h (by simp)
    · rw [h]
      simp
    · rw [h]
      simp

/-- Claim C7, witness: a run with the credential absent. -/
theorem C7_witness :
    runScript ⟨none, FileRead.ok ['q'], true, some ['r'], true⟩
      = ([], some ScriptError.configError) :=
  (C7_failfast ⟨none, FileRead.ok ['q'], true, some ['r'], true⟩).1 (Or.inl rfl)

/--
Claim C8: on input with no detected filename marker and no fence delimiter
occurring anywhere, parsing the content component of a previous parse
returns that content unchanged, with the default filename.
-/
theorem C8_idempotent (s : List Char)
    (hm : matchFilenameMarker (pyStrip s) = none)
    (hb : occursIn fenceBT s = false) (hq : occursIn fenceQ3 s = false) :
    extract_filename_and_content ((extract_filename_and_content s).1)
      = ((extract_filename_and_content s).1, outputTxt) := by
  have hb' := occursIn_pyStrip_false hb
  have hq' := occursIn_pyStrip_false hq
  have h1 := extract_plain s hm hb' hq'
  have hfst : (extract_filename_and_content s).1 = pyStrip s := by rw [h1]
  rw [hfst]
  have h2 := extract_plain (pyStrip s)
    (by rw [pyStrip_idem]; exact hm)
    (by rw [pyStrip_idem]; exact hb')
    (by rw [pyStrip_idem]; exact hq')
  rw [h2, pyStrip_idem]

/-- Claim C8, witness: instantiated at a plain input. -/
theorem C8_witness :
    extract_filename_and_content ((extract_filename_and_content ("hi".toList)).1)
      = ((extract_filename_and_content ("hi".toList)).1, outputTxt) :=
  C8_idempotent ("hi".toList) (by decide) (by decide) (by decide)

/--
Claim C10: on every input and every control path, the content component
returned by the parser equals its own trim — it never carries leading or
trailing whitespace.
-/
theorem C10_content_trimmed (s : List Char) :
    pyStrip ((extract_filename_and_content s).1) = (extract_filename_and_content s).1 := by
  simp only [extract_filename_and_content]
  cases hf : (parsedGroups (pyStrip s)).1 <;>
    by_cases he : (parsedGroups (pyStrip s)).2.isEmpty <;>
      simp [hf, he, pyStrip_idem]

/--
Claim C9: the opening and closing fence delimiters need not be of the same
kind — any opener among triple backtick and triple single quote (with an
optional language tag) may be closed by either kind at the very end of the
string, both being stripped from the content.
-/
theorem C9_mixed_fence {o cl : Char} (ho : o = bq ∨ o = qc) (hcl : cl = bq ∨ cl = qc)
    (tag body : List Char) (htag : ∀ c ∈ tag, isWordChar c = true) (hbody : body ≠ []) :
    extract_filename_and_content
        (o :: o :: o :: (tag ++ '\n' :: (body ++ '\n' :: [cl, cl, cl])))
      = (pyStrip body, outputTxt) := by
  have hbe : body.isEmpty = false := by
    cases body with
    | nil => exact absurd rfl hbody
    | cons _ _ => rfl
  have hdw := dropWhile_word_tag htag (body ++ '\n' :: [cl, cl, cl])
  have hws_o : isPySpace o = false := by
    rcases ho with rfl | rfl <;> decide
  have hws_cl : isPySpace cl = false := by
    rcases hcl with rfl | rfl <;> decide
  have hns : ¬(o = '*' ∧ o = '*') := by
    rcases ho with rfl | rfl <;> decide
  have hofc : (o = bq ∧ o = bq ∧ o = bq) ∨ (o = qc ∧ o = qc ∧ o = qc) := by
    rcases ho with rfl | rfl
    · exact Or.inl ⟨rfl, rfl, rfl⟩
    · exact Or.inr ⟨rfl, rfl, rfl⟩
  have hclfc : (cl = bq ∧ cl = bq ∧ cl = bq) ∨ (cl = qc ∧ cl = qc ∧ cl = qc) := by
    rcases hcl with rfl | rfl
    · exact Or.inl ⟨rfl, rfl, rfl⟩
    · exact Or.inr ⟨rfl, rfl, rfl⟩
  have hs : pyStrip (o :: o :: o :: (tag ++ '\n' :: (body ++ '\n' :: [cl, cl, cl])))
      = o :: o :: o :: (tag ++ '\n' :: (body ++ '\n' :: [cl, cl, cl])) := by
    have hcc := pyStrip_cons_concat
      (c := o) (d := cl) (m := o :: o :: (tag ++ '\n' :: (body ++ '\n' :: [cl, cl])))
      hws_o hws_cl
    simpa using hcc
  have hmark : matchFilenameMarker
      (o :: o :: o :: (tag ++ '\n' :: (body ++ '\n' :: [cl, cl, cl]))) = none := by
    simp only [matchFilenameMarker]
    rw [if_neg hns]
  have hfence : matchFenceOpen
      (o :: o :: o :: (tag ++ '\n' :: (body ++ '\n' :: [cl, cl, cl])))
      = some (body ++ '\n' :: [cl, cl, cl]) := by
    simp only [matchFenceOpen]
    rw [if_pos hofc, hdw]
    simp
  have hclose : stripClosingFence (body ++ '\n' :: [cl, cl, cl]) = body := by
    have hrev : (body ++ '\n' :: [cl, cl, cl]).reverse
        = cl :: cl :: cl :: '\n' :: body.reverse := by simp
    unfold stripClosingFence
    rw [hrev]
    simp only []
    rw [if_pos ⟨by trivial, hclfc⟩]
    exact List.reverse_reverse body
  simp only [extract_filename_and_content, parsedGroups, hs, hmark, hfence, hclose, hbe]
  simp

/-- Claim C9, witness: a backtick fence with a language tag closed by a
triple single quote, at a concrete input. -/
theorem C9_witness :
    extract_filename_and_content
        (bq :: bq :: bq :: ("python".toList ++ '\n' :: (['x'] ++ '\n' :: [qc, qc, qc])))
      = (pyStrip ['x'], outputTxt) :=
  C9_mixed_fence (Or.inl rfl) (Or.inr rfl) ("python".toList) ['x'] (by decide) (by decide)
